import Mathlib

/-!
Verification of the masking procedure `mask_article` from `create_mask_data.py`.

Text is modelled as `List Char`.  The ambient random source is modelled by two
explicit draw lists threaded through the computation: a list of rationals in
`[0,1)` standing for the successive results of `random()`, and a list of
naturals supplying the entropy of successive `randrange(lo, hi)` calls (the
drawn value is `lo + k % (hi - lo)`, which is exactly a uniform value of
`[lo, hi)` when the raw draw `k` is uniform).  Fallible behaviour is explicit:
`randrange` on an empty range raises in Python, which the model renders as
`MaskErr.emptyRange`; running out of modelled entropy (a model artefact, the
real generator is inexhaustible) is `MaskErr.outOfEntropy`.
-/

abbrev Txt := List Char

/-- The tokenizer collaborator: `tokenize`, `model_max_length`, `mask_token`. -/
structure Tokenizer where
  tokenize : Txt → List Txt
  model_max_length : Nat
  mask_token : Txt

/-- The fixed delimiter list `alphabet` from `mask_article`. -/
def alphabet : List Char := ['，', ',', '。', '：', ':', '；', ';', '！', '!', '？', '?']

/-- The delimiter strings: each delimiter character as a one-character string. -/
def alphabetSegs : List Txt := alphabet.map (fun c => [c])

/-- The membership test `sent in alphabet` of the Python loop. -/
def isDelim (s : Txt) : Bool := decide (s ∈ alphabetSegs)

/-- One step of `re.split(r'([，,。：,:；;！!？?])', article)`: scanning the text,
accumulating the current content fragment (in reverse), emitting the fragment
and the delimiter whenever a delimiter character is met. -/
def splitAux : Txt → Txt → List Txt
  | [], acc => [acc.reverse]
  | c :: rest, acc =>
    if c ∈ alphabet then acc.reverse :: [c] :: splitAux rest []
    else splitAux rest (c :: acc)

/-- `sentence_spliter.split(article)`: split on the delimiter set, keeping each
delimiter as a standalone segment (the regex has a capturing group). -/
def sentenceSplit (s : Txt) : List Txt := splitAux s []

/-- The truncation `tokenizer.tokenize(article)[:tokenizer.model_max_length]`,
with the kept tokens concatenated back into one string. -/
def truncArticle (tk : Tokenizer) (article : Txt) : Txt :=
  ((tk.tokenize article).take tk.model_max_length).flatten

/-- Failure modes of the model: `emptyRange` is Python's `ValueError` from
`randrange` on an empty range; `outOfEntropy` marks exhaustion of the modelled
draw lists. -/
inductive MaskErr where
  | emptyRange
  | outOfEntropy
deriving DecidableEq

/-- The inner `while word_idx < len(tokenized_sent)` loop of `mask_article`,
for one tokenized sentence `toks`.  `i` is `word_idx`; `fs` and `ks` are the
pending float and integer draws.  Returns the masked pieces, the answer pieces
and the remaining draws. -/
def wordLoop (M : Txt) (wp nump : ℚ) (minn maxn : Nat) (toks : List Txt) :
    Nat → List ℚ → List Nat → Except MaskErr (List Txt × List Txt × List ℚ × List Nat)
  | i, [], ks =>
    if i < toks.length then .error .outOfEntropy else .ok ([], [], [], ks)
  | i, r1 :: fs1, ks =>
    if i < toks.length then
      if r1 < wp then
        match fs1 with
        | [] => .error .outOfEntropy
        | r2 :: fs2 =>
          if r2 < nump then
            if minn < maxn then
              match ks with
              | [] => .error .outOfEntropy
              | k :: ks1 =>
                match wordLoop M wp nump minn maxn toks
                    (i + (minn + k % (maxn - minn))) fs2 ks1 with
                | .error e => .error e
                | .ok (ms, ans, fs', ks') =>
                  .ok (M :: ms,
                       ((toks.drop i).take (minn + k % (maxn - minn))).flatten :: ans,
                       fs', ks')
            else .error .emptyRange
          else
            match wordLoop M wp nump minn maxn toks (i + 1) fs2 ks with
            | .error e => .error e
            | .ok (ms, ans, fs', ks') =>
              .ok (M :: ms, toks.getD i [] :: ans, fs', ks')
      else
        match wordLoop M wp nump minn maxn toks (i + 1) fs1 ks with
        | .error e => .error e
        | .ok (ms, ans, fs', ks') =>
          .ok (toks.getD i [] :: ms, ans, fs', ks')
    else .ok ([], [], r1 :: fs1, ks)

/-- The body of the `for sent in sentences` loop for one segment `sent`:
a delimiter segment is copied through consuming no randomness; otherwise with
probability `sentence_mask_p` the whole segment becomes one mask token and the
segment joins the answer list, else the word-level loop runs on the
re-tokenized segment.  Returns the masked pieces and answer pieces this
segment contributes, with the remaining draws. -/
def sentOne (tk : Tokenizer) (sp wp nump : ℚ) (minn maxn : Nat) (sent : Txt)
    (fs : List ℚ) (ks : List Nat) :
    Except MaskErr (List Txt × List Txt × List ℚ × List Nat) :=
  if isDelim sent then .ok ([sent], [], fs, ks)
  else
    match fs with
    | [] => .error .outOfEntropy
    | r :: fs1 =>
      if r < sp then .ok ([tk.mask_token], [sent], fs1, ks)
      else wordLoop tk.mask_token wp nump minn maxn (tk.tokenize sent) 0 fs1 ks

/-- The `for sent in sentences` loop of the non-document branch: each segment
is processed by `sentOne` and the contributions are concatenated in order,
exactly as the Python loop appends them to `masked_sentences` and `answer`. -/
def sentLoop (tk : Tokenizer) (sp wp nump : ℚ) (minn maxn : Nat) :
    List Txt → List ℚ → List Nat → Except MaskErr (List Txt × List Txt × List ℚ × List Nat)
  | [], fs, ks => .ok ([], [], fs, ks)
  | sent :: rest, fs, ks =>
    match sentOne tk sp wp nump minn maxn sent fs ks with
    | .error e => .error e
    | .ok (ms1, ans1, fs2, ks2) =>
      match sentLoop tk sp wp nump minn maxn rest fs2 ks2 with
      | .error e => .error e
      | .ok (ms, ans, fs', ks') => .ok (ms1 ++ ms, ans1 ++ ans, fs', ks')

/-- `mask_article`: truncate the article, then with probability
`document_mask_p` mask the whole document, else run the sentence loop over the
delimiter-split article.  Returns `(masked_text, answer_text)` where
`answer_text` is the mask-token join of the answer list with one mask token
appended. -/
def mask_article (tk : Tokenizer) (article : Txt)
    (document_mask_p sentence_mask_p word_mask_p ngram_mask_p : ℚ)
    (min_ngram_length max_ngram_length : Nat)
    (fs : List ℚ) (ks : List Nat) : Except MaskErr (Txt × Txt) :=
  match fs with
  | [] => .error .outOfEntropy
  | r :: fs1 =>
    if r < document_mask_p then
      .ok (tk.mask_token, truncArticle tk article ++ tk.mask_token)
    else
      match sentLoop tk sentence_mask_p word_mask_p ngram_mask_p
          min_ngram_length max_ngram_length
          (sentenceSplit (truncArticle tk article)) fs1 ks with
      | .error e => .error e
      | .ok (ms, ans, _, _) =>
        .ok (ms.flatten, List.intercalate tk.mask_token ans ++ tk.mask_token)

/-- A concrete tokenizer used for witnesses and counterexamples: one token per
character, mask token `"M"`. -/
def charTokenizer : Tokenizer where
  tokenize s := s.map (fun c => [c])
  model_max_length := 1000
  mask_token := ['M']

/-- The masked form of one segment when sentence masking certainly fires:
a delimiter stays, a content segment becomes the mask token. -/
def maskSeg (M : Txt) (s : Txt) : Txt := if isDelim s then s else M

/-- The pass-through pieces of one segment when no masking fires: a delimiter
stays as one piece, a content segment contributes its tokens. -/
def perSeg (tk : Tokenizer) (s : Txt) : List Txt :=
  if isDelim s then [s] else tk.tokenize s

/-- Number of content (non-delimiter) segments of the split of `t`. -/
def contentCount (t : Txt) : Nat :=
  (sentenceSplit t).countP (fun s => !isDelim s)

/-- Float draws consumed on `sents` when no branch ever masks
(one sentence draw plus one word draw per token, per content segment). -/
def quietBudget (tk : Tokenizer) (sents : List Txt) : Nat :=
  (sents.map (fun s => if isDelim s then 0 else 1 + (tk.tokenize s).length)).sum

/-- An upper bound on the float draws `sentLoop` can consume on `sents`. -/
def floatBudget (tk : Tokenizer) (sents : List Txt) : Nat :=
  (sents.map (fun s => if isDelim s then 0 else 1 + 2 * (tk.tokenize s).length)).sum

/-- An upper bound on the integer draws `sentLoop` can consume on `sents`. -/
def intBudget (tk : Tokenizer) (sents : List Txt) : Nat :=
  (sents.map (fun s => if isDelim s then 0 else (tk.tokenize s).length)).sum

/-! ### Splitting lemmas -/

lemma splitAux_flatten : ∀ (s acc : Txt), (splitAux s acc).flatten = acc.reverse ++ s := by
  intro s
  induction s with
  | nil => intro acc; simp [splitAux]
  | cons c rest ih =>
    intro acc
    by_cases hc : c ∈ alphabet
    · simp [splitAux, hc, ih]
    · simp [splitAux, hc, ih]

lemma sentenceSplit_flatten (s : Txt) : (sentenceSplit s).flatten = s := by
  simp [sentenceSplit, splitAux_flatten]

lemma splitAux_classify : ∀ (s acc : Txt), (∀ c ∈ acc, c ∉ alphabet) →
    ∀ seg ∈ splitAux s acc, seg ∈ alphabetSegs ∨ ∀ c ∈ seg, c ∉ alphabet := by
  intro s
  induction s with
  | nil =>
    intro acc hacc seg hseg
    simp only [splitAux, List.mem_singleton] at hseg
    subst hseg
    exact Or.inr fun c hc => hacc c (List.mem_reverse.mp hc)
  | cons c rest ih =>
    intro acc hacc seg hseg
    by_cases hc : c ∈ alphabet
    · simp only [splitAux, if_pos hc, List.mem_cons] at hseg
      rcases hseg with h | h | h
      · subst h
        exact Or.inr fun x hx => hacc x (List.mem_reverse.mp hx)
      · subst h
        exact Or.inl (List.mem_map.mpr ⟨c, hc, rfl⟩)
      · exact ih [] (by simp) seg h
    · simp only [splitAux, if_neg hc] at hseg
      refine ih (c :: acc) ?_ seg hseg
      intro x hx
      rcases List.mem_cons.mp hx with h | h
      · exact h ▸ hc
      · exact hacc x h

/-! ### Step lemmas unfolding the loops -/

lemma wordLoop_done {M : Txt} {wp nump : ℚ} {minn maxn : Nat} {toks : List Txt}
    {i : Nat} {fs : List ℚ} {ks : List Nat} (h : ¬ i < toks.length) :
    wordLoop M wp nump minn maxn toks i fs ks = .ok ([], [], fs, ks) := by
  rw [wordLoop.eq_def]
  cases fs <;> simp [h]

lemma wordLoop_pass {M : Txt} {wp nump : ℚ} {minn maxn : Nat} {toks : List Txt}
    {i : Nat} {r1 : ℚ} {fs1 : List ℚ} {ks : List Nat}
    {ms ans : List Txt} {fs' : List ℚ} {ks' : List Nat}
    (h : i < toks.length) (hr : ¬ r1 < wp)
    (hrec : wordLoop M wp nump minn maxn toks (i + 1) fs1 ks = .ok (ms, ans, fs', ks')) :
    wordLoop M wp nump minn maxn toks i (r1 :: fs1) ks
      = .ok (toks.getD i [] :: ms, ans, fs', ks') := by
  rw [wordLoop.eq_def]
  simp [h, hr, hrec]

lemma wordLoop_single {M : Txt} {wp nump : ℚ} {minn maxn : Nat} {toks : List Txt}
    {i : Nat} {r1 r2 : ℚ} {fs2 : List ℚ} {ks : List Nat}
    {ms ans : List Txt} {fs' : List ℚ} {ks' : List Nat}
    (h : i < toks.length) (h1 : r1 < wp) (h2 : ¬ r2 < nump)
    (hrec : wordLoop M wp nump minn maxn toks (i + 1) fs2 ks = .ok (ms, ans, fs', ks')) :
    wordLoop M wp nump minn maxn toks i (r1 :: r2 :: fs2) ks
      = .ok (M :: ms, toks.getD i [] :: ans, fs', ks') := by
  rw [wordLoop.eq_def]
  simp [h, h1, h2, hrec]

lemma wordLoop_ngram {M : Txt} {wp nump : ℚ} {minn maxn : Nat} {toks : List Txt}
    {i : Nat} {r1 r2 : ℚ} {fs2 : List ℚ} {k : Nat} {ks1 : List Nat}
    {ms ans : List Txt} {fs' : List ℚ} {ks' : List Nat}
    (h : i < toks.length) (h1 : r1 < wp) (h2 : r2 < nump) (hlt : minn < maxn)
    (hrec : wordLoop M wp nump minn maxn toks (i + (minn + k % (maxn - minn))) fs2 ks1
      = .ok (ms, ans, fs', ks')) :
    wordLoop M wp nump minn maxn toks i (r1 :: r2 :: fs2) (k :: ks1)
      = .ok (M :: ms,
             ((toks.drop i).take (minn + k % (maxn - minn))).flatten :: ans, fs', ks') := by
  rw [wordLoop.eq_def]
  simp [h, h1, h2, hlt, hrec]

lemma sentLoop_delim {tk : Tokenizer} {sp wp nump : ℚ} {minn maxn : Nat}
    {sent : Txt} {rest : List Txt} {fs : List ℚ} {ks : List Nat}
    {ms ans : List Txt} {fs' : List ℚ} {ks' : List Nat}
    (hd : isDelim sent = true)
    (hrec : sentLoop tk sp wp nump minn maxn rest fs ks = .ok (ms, ans, fs', ks')) :
    sentLoop tk sp wp nump minn maxn (sent :: rest) fs ks
      = .ok (sent :: ms, ans, fs', ks') := by
  simp [sentLoop, sentOne, hd, hrec]

lemma sentLoop_maskSent {tk : Tokenizer} {sp wp nump : ℚ} {minn maxn : Nat}
    {sent : Txt} {rest : List Txt} {r : ℚ} {fs1 : List ℚ} {ks : List Nat}
    {ms ans : List Txt} {fs' : List ℚ} {ks' : List Nat}
    (hd : isDelim sent = false) (hr : r < sp)
    (hrec : sentLoop tk sp wp nump minn maxn rest fs1 ks = .ok (ms, ans, fs', ks')) :
    sentLoop tk sp wp nump minn maxn (sent :: rest) (r :: fs1) ks
      = .ok (tk.mask_token :: ms, sent :: ans, fs', ks') := by
  simp [sentLoop, sentOne, hd, hr, hrec]

lemma sentLoop_word {tk : Tokenizer} {sp wp nump : ℚ} {minn maxn : Nat}
    {sent : Txt} {rest : List Txt} {r : ℚ} {fs1 : List ℚ} {ks : List Nat}
    {ms1 ans1 ms ans : List Txt} {fs2 fs' : List ℚ} {ks2 ks' : List Nat}
    (hd : isDelim sent = false) (hr : ¬ r < sp)
    (hw : wordLoop tk.mask_token wp nump minn maxn (tk.tokenize sent) 0 fs1 ks
      = .ok (ms1, ans1, fs2, ks2))
    (hrec : sentLoop tk sp wp nump minn maxn rest fs2 ks2 = .ok (ms, ans, fs', ks')) :
    sentLoop tk sp wp nump minn maxn (sent :: rest) (r :: fs1) ks
      = .ok (ms1 ++ ms, ans1 ++ ans, fs', ks') := by
  simp [sentLoop, sentOne, hd, hr, hw, hrec]

lemma mask_article_doc {tk : Tokenizer} {article : Txt} {dp sp wp nump : ℚ}
    {minn maxn : Nat} {r : ℚ} {fs1 : List ℚ} {ks : List Nat} (hr : r < dp) :
    mask_article tk article dp sp wp nump minn maxn (r :: fs1) ks
      = .ok (tk.mask_token, truncArticle tk article ++ tk.mask_token) := by
  simp [mask_article, hr]

lemma mask_article_body {tk : Tokenizer} {article : Txt} {dp sp wp nump : ℚ}
    {minn maxn : Nat} {r : ℚ} {fs1 : List ℚ} {ks : List Nat}
    {ms ans : List Txt} {fs' : List ℚ} {ks' : List Nat}
    (hr : ¬ r < dp)
    (hs : sentLoop tk sp wp nump minn maxn (sentenceSplit (truncArticle tk article)) fs1 ks
      = .ok (ms, ans, fs', ks')) :
    mask_article tk article dp sp wp nump minn maxn (r :: fs1) ks
      = .ok (ms.flatten, List.intercalate tk.mask_token ans ++ tk.mask_token) := by
  simp [mask_article, hr, hs]

/-! ### Behaviour of the word loop with `word_mask_p = 0` -/

lemma wordLoop_wp0 {M : Txt} {nump : ℚ} {minn maxn : Nat} {toks : List Txt} :
    ∀ (fs : List ℚ) (i : Nat) (ks : List Nat), (∀ r ∈ fs, 0 ≤ r) →
    toks.length - i ≤ fs.length →
    wordLoop M 0 nump minn maxn toks i fs ks
      = .ok (toks.drop i, [], fs.drop (toks.length - i), ks) := by
  intro fs
  induction fs with
  | nil =>
    intro i ks _ hlen
    have hi : ¬ i < toks.length := by simp only [List.length_nil] at hlen; omega
    rw [wordLoop_done hi]
    have h1 : toks.drop i = [] := List.drop_eq_nil_of_le (by omega)
    simp [h1]
  | cons r fs1 ih =>
    intro i ks hval hlen
    by_cases hi : i < toks.length
    · have hr : ¬ r < (0 : ℚ) := not_lt.mpr (hval r (List.mem_cons_self r fs1))
      have hrec := ih (i + 1) ks (fun x hx => hval x (List.mem_cons_of_mem r hx))
        (by simp only [List.length_cons] at hlen ⊢; omega)
      have hdrop : toks.drop i = toks[i] :: toks.drop (i + 1) := List.drop_eq_getElem_cons hi
      have hgetD : toks.getD i [] = toks[i] := List.getD_eq_getElem toks [] hi
      have hfs : (r :: fs1).drop (toks.length - i) = fs1.drop (toks.length - (i + 1)) := by
        rw [show toks.length - i = (toks.length - (i + 1)) + 1 by omega]
        rfl
      rw [hdrop, hfs, ← hgetD]
      exact wordLoop_pass hi hr hrec
    · rw [wordLoop_done hi]
      have h1 : toks.drop i = [] := List.drop_eq_nil_of_le (by omega)
      have h2 : toks.length - i = 0 := by omega
      simp [h1, h2]

/-! ### Behaviour of the sentence loop with `sentence_mask_p = 1` -/

lemma sentLoop_sp1 {tk : Tokenizer} {wp nump : ℚ} {minn maxn : Nat} :
    ∀ (sents : List Txt) (fs : List ℚ) (ks : List Nat), (∀ r ∈ fs, r < 1) →
    sents.countP (fun s => !isDelim s) ≤ fs.length →
    sentLoop tk 1 wp nump minn maxn sents fs ks
      = .ok (sents.map (maskSeg tk.mask_token), sents.filter (fun s => !isDelim s),
             fs.drop (sents.countP (fun s => !isDelim s)), ks) := by
  intro sents
  induction sents with
  | nil => intro fs ks _ _; simp [sentLoop]
  | cons sent rest ih =>
    intro fs ks hval hlen
    by_cases hd : isDelim sent
    · have hlen' : rest.countP (fun s => !isDelim s) ≤ fs.length := by
        simp only [List.countP_cons, hd] at hlen ⊢
        omega
      rw [sentLoop_delim hd (ih fs ks hval hlen')]
      simp [maskSeg, hd, List.countP_cons]
    · simp only [Bool.not_eq_true] at hd
      rcases fs with _ | ⟨r, fs1⟩
      · exfalso
        simp only [List.countP_cons, hd, List.length_nil] at hlen
        simp at hlen
      · have hr : r < (1 : ℚ) := hval r (List.mem_cons_self r fs1)
        have hlen' : rest.countP (fun s => !isDelim s) ≤ fs1.length := by
          simp only [List.countP_cons, hd, List.length_cons] at hlen ⊢
          simp at hlen
          omega
        have hrec := ih fs1 ks (fun x hx => hval x (List.mem_cons_of_mem r hx)) hlen'
        rw [sentLoop_maskSent hd hr hrec]
        simp [maskSeg, hd, List.countP_cons]

/-- Counting mask tokens in the certainly-sentence-masked segment list: one per
content segment, provided the mask token is not itself a delimiter string. -/
lemma count_maskSeg {M : Txt} (hM : M ∉ alphabetSegs) :
    ∀ sents : List Txt, (sents.map (maskSeg M)).count M
      = sents.countP (fun s => !isDelim s) := by
  intro sents
  induction sents with
  | nil => simp
  | cons s rest ih =>
    by_cases hd : isDelim s
    · have hsM : s ≠ M := by
        intro h
        subst h
        exact hM (of_decide_eq_true hd)
      simp [maskSeg, hd, List.count_cons, List.countP_cons, ih, hsM]
    · simp only [Bool.not_eq_true] at hd
      simp [maskSeg, hd, List.count_cons, List.countP_cons, ih]

/-! ### Behaviour of the sentence loop with `sentence_mask_p = 0`, `word_mask_p = 0` -/

lemma sentLoop_quiet {tk : Tokenizer} {nump : ℚ} {minn maxn : Nat} :
    ∀ (sents : List Txt) (fs : List ℚ) (ks : List Nat), (∀ r ∈ fs, 0 ≤ r) →
    quietBudget tk sents ≤ fs.length →
    sentLoop tk 0 0 nump minn maxn sents fs ks
      = .ok ((sents.map (perSeg tk)).flatten, [], fs.drop (quietBudget tk sents), ks) := by
  intro sents
  induction sents with
  | nil => intro fs ks _ _; simp [sentLoop, quietBudget]
  | cons sent rest ih =>
    intro fs ks hval hlen
    by_cases hd : isDelim sent
    · have hlen' : quietBudget tk rest ≤ fs.length := by
        simp only [quietBudget, List.map_cons, List.sum_cons, hd, if_true] at hlen ⊢
        omega
      rw [sentLoop_delim hd (ih fs ks hval hlen')]
      simp [perSeg, hd, quietBudget]
    · simp only [Bool.not_eq_true] at hd
      have hq : quietBudget tk (sent :: rest)
          = ((tk.tokenize sent).length + quietBudget tk rest) + 1 := by
        simp [quietBudget, hd]
        omega
      rcases fs with _ | ⟨r, fs1⟩
      · exfalso
        rw [hq] at hlen
        simp only [List.length_nil] at hlen
        omega
      · rw [hq] at hlen
        simp only [List.length_cons] at hlen
        have hr : ¬ r < (0 : ℚ) := not_lt.mpr (hval r (List.mem_cons_self r fs1))
        have hval1 : ∀ x ∈ fs1, (0 : ℚ) ≤ x := fun x hx => hval x (List.mem_cons_of_mem r hx)
        have hw := @wordLoop_wp0 tk.mask_token nump minn maxn
          (tk.tokenize sent) fs1 0 ks hval1 (by omega)
        simp only [List.drop_zero, Nat.sub_zero] at hw
        have hval2 : ∀ x ∈ fs1.drop (tk.tokenize sent).length, (0 : ℚ) ≤ x :=
          fun x hx => hval1 x (List.drop_subset _ _ hx)
        have hlen2 : quietBudget tk rest ≤ (fs1.drop (tk.tokenize sent).length).length := by
          simp only [List.length_drop]
          omega
        have hrec := ih (fs1.drop (tk.tokenize sent).length) ks hval2 hlen2
        rw [sentLoop_word hd hr hw hrec, hq]
        rw [show (r :: fs1).drop (((tk.tokenize sent).length + quietBudget tk rest) + 1)
              = fs1.drop ((tk.tokenize sent).length + quietBudget tk rest) from rfl]
        rw [← List.drop_drop]
        simp [perSeg, hd]

/-! ### Totality: bounded entropy consumption when the ngram range is sane -/

lemma wordLoop_ok {M : Txt} {wp nump : ℚ} {minn maxn : Nat} {toks : List Txt}
    (hmin : 1 ≤ minn) (hlt : minn < maxn) :
    ∀ (fuel i : Nat) (fs : List ℚ) (ks : List Nat),
    toks.length - i ≤ fuel →
    2 * (toks.length - i) ≤ fs.length → toks.length - i ≤ ks.length →
    ∃ ms ans fs' ks', wordLoop M wp nump minn maxn toks i fs ks = .ok (ms, ans, fs', ks')
      ∧ fs.length - 2 * (toks.length - i) ≤ fs'.length
      ∧ ks.length - (toks.length - i) ≤ ks'.length := by
  intro fuel
  induction fuel with
  | zero =>
    intro i fs ks hfuel hfs hks
    have hi : ¬ i < toks.length := by omega
    exact ⟨[], [], fs, ks, wordLoop_done hi, by omega, by omega⟩
  | succ fuel ih =>
    intro i fs ks hfuel hfs hks
    by_cases hi : i < toks.length
    · rcases fs with _ | ⟨r1, _ | ⟨r2, fs2⟩⟩
      · exfalso; simp only [List.length_nil] at hfs; omega
      · exfalso; simp only [List.length_cons, List.length_nil] at hfs; omega
      · simp only [List.length_cons] at hfs
        by_cases h1 : r1 < wp
        · by_cases h2 : r2 < nump
          · rcases ks with _ | ⟨k, ks1⟩
            · exfalso; simp only [List.length_nil] at hks; omega
            · simp only [List.length_cons] at hks
              have hn1 : 1 ≤ minn + k % (maxn - minn) := by omega
              obtain ⟨ms, ans, fs', ks', hrec, hb1, hb2⟩ :=
                ih (i + (minn + k % (maxn - minn))) fs2 ks1 (by omega) (by omega) (by omega)
              exact ⟨_, _, fs', ks', wordLoop_ngram hi h1 h2 hlt hrec,
                by simp only [List.length_cons]; omega,
                by simp only [List.length_cons]; omega⟩
          · obtain ⟨ms, ans, fs', ks', hrec, hb1, hb2⟩ :=
              ih (i + 1) fs2 ks (by omega) (by omega) (by omega)
            exact ⟨_, _, fs', ks', wordLoop_single hi h1 h2 hrec,
              by simp only [List.length_cons]; omega, by omega⟩
        · obtain ⟨ms, ans, fs', ks', hrec, hb1, hb2⟩ :=
            ih (i + 1) (r2 :: fs2) ks (by omega)
              (by simp only [List.length_cons]; omega) (by omega)
          exact ⟨_, _, fs', ks', wordLoop_pass hi h1 hrec,
            by simp only [List.length_cons] at hb1 ⊢; omega, by omega⟩
    · exact ⟨[], [], fs, ks, wordLoop_done hi, by omega, by omega⟩

lemma sentLoop_ok {tk : Tokenizer} {sp wp nump : ℚ} {minn maxn : Nat}
    (hmin : 1 ≤ minn) (hlt : minn < maxn) :
    ∀ (sents : List Txt) (fs : List ℚ) (ks : List Nat),
    floatBudget tk sents ≤ fs.length → intBudget tk sents ≤ ks.length →
    ∃ ms ans fs' ks', sentLoop tk sp wp nump minn maxn sents fs ks = .ok (ms, ans, fs', ks')
      ∧ fs.length - floatBudget tk sents ≤ fs'.length
      ∧ ks.length - intBudget tk sents ≤ ks'.length := by
  intro sents
  induction sents with
  | nil =>
    intro fs ks _ _
    exact ⟨[], [], fs, ks, rfl, by simp [floatBudget], by simp [intBudget]⟩
  | cons sent rest ih =>
    intro fs ks hfs hks
    by_cases hd : isDelim sent
    · have hfq : floatBudget tk (sent :: rest) = floatBudget tk rest := by
        simp [floatBudget, hd]
      have hkq : intBudget tk (sent :: rest) = intBudget tk rest := by
        simp [intBudget, hd]
      rw [hfq] at hfs ⊢
      rw [hkq] at hks ⊢
      obtain ⟨ms, ans, fs', ks', hrec, hb1, hb2⟩ := ih fs ks hfs hks
      exact ⟨sent :: ms, ans, fs', ks', sentLoop_delim hd hrec, hb1, hb2⟩
    · simp only [Bool.not_eq_true] at hd
      have hfq : floatBudget tk (sent :: rest)
          = 1 + 2 * (tk.tokenize sent).length + floatBudget tk rest := by
        simp [floatBudget, hd]
      have hkq : intBudget tk (sent :: rest)
          = (tk.tokenize sent).length + intBudget tk rest := by
        simp [intBudget, hd]
      rw [hfq] at hfs ⊢
      rw [hkq] at hks ⊢
      rcases fs with _ | ⟨r, fs1⟩
      · exfalso; simp only [List.length_nil] at hfs; omega
      · simp only [List.length_cons] at hfs ⊢
        by_cases hr : r < sp
        · obtain ⟨ms, ans, fs', ks', hrec, hb1, hb2⟩ := ih fs1 ks (by omega) (by omega)
          exact ⟨tk.mask_token :: ms, sent :: ans, fs', ks',
            sentLoop_maskSent hd hr hrec, by omega, by omega⟩
        · obtain ⟨ms1, ans1, fs2, ks2, hw, hwb1, hwb2⟩ :=
            @wordLoop_ok tk.mask_token wp nump minn maxn
              (tk.tokenize sent) hmin hlt (tk.tokenize sent).length 0 fs1 ks
              (by omega) (by omega) (by omega)
          obtain ⟨ms, ans, fs', ks', hrec, hb1, hb2⟩ := ih fs2 ks2 (by omega) (by omega)
          exact ⟨ms1 ++ ms, ans1 ++ ans, fs', ks', sentLoop_word hd hr hw hrec,
            by omega, by omega⟩

/-- When nothing masks, the per-segment pieces flatten back to the segments,
for a tokenizer whose tokens concatenate back losslessly. -/
lemma perSeg_flatten {tk : Tokenizer} (htok : ∀ s : Txt, (tk.tokenize s).flatten = s) :
    ∀ sents : List Txt, ((sents.map (perSeg tk)).flatten).flatten = sents.flatten := by
  intro sents
  induction sents with
  | nil => simp
  | cons s rest ih =>
    by_cases hd : isDelim s
    · simp [perSeg, hd, ih]
    · simp only [Bool.not_eq_true] at hd
      simp [perSeg, hd, ih, htok]

/-- The character tokenizer concatenates back losslessly. -/
lemma charTokenizer_flatten : ∀ s : Txt, (charTokenizer.tokenize s).flatten = s := by
  intro s
  induction s with
  | nil => rfl
  | cons c cs ih => simp [charTokenizer] at ih ⊢; exact ih

/-- `intercalate` on a one-element list is that element. -/
lemma intercalate_one (sep x : Txt) : List.intercalate sep [x] = x := by
  simp [List.intercalate]

/-- `intercalate` on the empty list is empty. -/
lemma intercalate_zero (sep : Txt) : List.intercalate sep [] = [] := by
  simp [List.intercalate]

/-! ### Claim theorems -/

/-- C2: splitting the truncated article on the fixed delimiter set keeps each
delimiter as a standalone one-character segment, keeps content segments free
of delimiter characters, preserves order, and concatenating the full ordered
split sequence reconstructs the truncated article exactly. -/
theorem c2_split_reconstructs (tk : Tokenizer) (article : Txt) :
    (sentenceSplit (truncArticle tk article)).flatten = truncArticle tk article
    ∧ ∀ seg ∈ sentenceSplit (truncArticle tk article),
        seg ∈ alphabetSegs ∨ ∀ c ∈ seg, c ∉ alphabet :=
  ⟨sentenceSplit_flatten _,
   splitAux_classify (truncArticle tk article) [] (by simp)⟩

/-- Witness for C2 at the concrete article `"a。b"` with the character
tokenizer, evaluating the split segment `"。"`. -/
theorem c2_split_reconstructs_witness :
    (sentenceSplit (truncArticle charTokenizer ['a', '。', 'b'])).flatten
        = truncArticle charTokenizer ['a', '。', 'b']
    ∧ ((['。'] : Txt) ∈ alphabetSegs ∨ ∀ c ∈ (['。'] : Txt), c ∉ alphabet) :=
  ⟨(c2_split_reconstructs charTokenizer ['a', '。', 'b']).1,
   (c2_split_reconstructs charTokenizer ['a', '。', 'b']).2 ['。'] (by decide)⟩

/-- C3: with `document_mask_p = 1` the first draw (every draw of `random()` is
below 1) always takes the document branch: `masked_text` is the mask token and
`answer_text` is the truncated article followed by the mask token, whatever
the other parameters, draws and article. -/
theorem c3_document_mask (tk : Tokenizer) (article : Txt) (sp wp nump : ℚ)
    (minn maxn : Nat) (r : ℚ) (fs : List ℚ) (ks : List Nat) (hr : r < 1) :
    mask_article tk article 1 sp wp nump minn maxn (r :: fs) ks
      = .ok (tk.mask_token, truncArticle tk article ++ tk.mask_token) :=
  mask_article_doc hr

/-- Witness for C3 at the article `"a。"` with the character tokenizer. -/
theorem c3_document_mask_witness :
    mask_article charTokenizer ['a', '。'] 1 0 0 0 2 6 [0] []
      = .ok (charTokenizer.mask_token,
             truncArticle charTokenizer ['a', '。'] ++ charTokenizer.mask_token) :=
  c3_document_mask charTokenizer ['a', '。'] 0 0 0 2 6 0 [] [] (by norm_num)

/-- C5: whenever the n-gram branch fires (cursor in range, word draw below
`word_mask_p`, second draw below `ngram_mask_p`), the drawn length
`n = minn + k % (maxn - minn)` satisfies `minn ≤ n < maxn`, the masked output
receives a single mask token, the concatenation of the next `n` tokens from
the cursor joins the answer list, and the cursor advances by exactly `n`. -/
theorem c5_ngram_step (M : Txt) (wp nump : ℚ) (minn maxn : Nat) (toks : List Txt)
    (i : Nat) (r1 r2 : ℚ) (fs2 : List ℚ) (k : Nat) (ks1 : List Nat)
    (ms ans : List Txt) (fs' : List ℚ) (ks' : List Nat)
    (hi : i < toks.length) (h1 : r1 < wp) (h2 : r2 < nump) (hlt : minn < maxn)
    (hrec : wordLoop M wp nump minn maxn toks (i + (minn + k % (maxn - minn))) fs2 ks1
      = .ok (ms, ans, fs', ks')) :
    minn ≤ minn + k % (maxn - minn) ∧ minn + k % (maxn - minn) < maxn ∧
    wordLoop M wp nump minn maxn toks i (r1 :: r2 :: fs2) (k :: ks1)
      = .ok (M :: ms,
             ((toks.drop i).take (minn + k % (maxn - minn))).flatten :: ans,
             fs', ks') :=
  ⟨Nat.le_add_right _ _,
   by have := Nat.mod_lt k (show 0 < maxn - minn by omega); omega,
   wordLoop_ngram hi h1 h2 hlt hrec⟩

/-- Witness for C5: three one-character tokens, `n = 2` drawn at cursor 0. -/
theorem c5_ngram_step_witness :
    2 ≤ 2 + 0 % (6 - 2) ∧ 2 + 0 % (6 - 2) < 6 ∧
    wordLoop ['M'] 1 1 2 6 [['a'], ['b'], ['c']] 0 [0, 0, 1] [0]
      = .ok ([['M'], ['c']], [['a', 'b']], [], []) :=
  c5_ngram_step ['M'] 1 1 2 6 [['a'], ['b'], ['c']] 0 0 0 [1] 0 []
    [['c']] [] [] [] (by norm_num) (by norm_num) (by norm_num) (by norm_num) rfl

/-- C7: a split segment that is a pure delimiter is copied unchanged into the
masked output at its original position, consumes no randomness, and never
contributes to the answer list, whatever the parameters. -/
theorem c7_delimiter_passthrough (tk : Tokenizer) (sp wp nump : ℚ) (minn maxn : Nat)
    (sent : Txt) (rest : List Txt) (fs : List ℚ) (ks : List Nat)
    (ms ans : List Txt) (fs' : List ℚ) (ks' : List Nat)
    (hd : sent ∈ alphabetSegs)
    (hrec : sentLoop tk sp wp nump minn maxn rest fs ks = .ok (ms, ans, fs', ks')) :
    sentLoop tk sp wp nump minn maxn (sent :: rest) fs ks
      = .ok (sent :: ms, ans, fs', ks') :=
  sentLoop_delim (decide_eq_true hd) hrec

/-- Witness for C7 at the delimiter segment `"，"`. -/
theorem c7_delimiter_passthrough_witness :
    sentLoop charTokenizer 0 0 0 2 6 [['，']] [] []
      = .ok ([['，']], [], [], []) :=
  c7_delimiter_passthrough charTokenizer 0 0 0 2 6 ['，'] [] [] [] [] [] [] []
    (by decide) rfl

/-- C9: an empty split fragment is classified as a content segment, not a
delimiter; under sentence-level masking it contributes one mask token to the
masked output and an empty string to the answer list; concretely, on the
article `"。"` (split `["", "。", ""]`) the masked text is `"M。M"`, with both
mask tokens corresponding to no removed text, and the answer text `"MM"` is
two consecutive mask tokens. -/
theorem c9_empty_fragment_content :
    (([] : Txt) ∉ alphabetSegs)
    ∧ (∀ (tk : Tokenizer) (sp wp nump : ℚ) (minn maxn : Nat) (rest : List Txt)
         (r : ℚ) (fs : List ℚ) (ks : List Nat) (ms ans : List Txt)
         (fs' : List ℚ) (ks' : List Nat),
        r < sp →
        sentLoop tk sp wp nump minn maxn rest fs ks = .ok (ms, ans, fs', ks') →
        sentLoop tk sp wp nump minn maxn (([] : Txt) :: rest) (r :: fs) ks
          = .ok (tk.mask_token :: ms, ([] : Txt) :: ans, fs', ks'))
    ∧ mask_article charTokenizer ['。'] 0 1 0 0 2 6 [0, 0, 0] []
        = .ok (['M', '。', 'M'], ['M', 'M'])
    ∧ (['M', 'M'] : Txt) = charTokenizer.mask_token ++ charTokenizer.mask_token := by
  refine ⟨by decide, ?_, rfl, rfl⟩
  intro tk sp wp nump minn maxn rest r fs ks ms ans fs' ks' hr hrec
  exact sentLoop_maskSent (by decide) hr hrec

/-- Witness for C9: the empty segment alone, with a sentence draw of 0. -/
theorem c9_empty_fragment_content_witness :
    sentLoop charTokenizer 1 0 0 2 6 [([] : Txt)] [0] []
      = .ok ([charTokenizer.mask_token], [([] : Txt)], [], []) :=
  c9_empty_fragment_content.2.1 charTokenizer 1 0 0 2 6 [] 0 [] [] [] [] [] []
    (by norm_num) rfl

/-- C1 counterexample: on the article `"a。。"` with certain sentence masking,
the split is `["a", "。", "", "。", ""]` and the two empty content segments
contribute empty answer entries, so the returned answer text `"aMMM"` ends
with three mask tokens - "ends with exactly one trailing MaskToken" fails as
stated. -/
theorem c1_trailing_mask_counterexample :
    mask_article charTokenizer ['a', '。', '。'] 0 1 0 0 2 6 [0, 0, 0, 0] []
      = .ok (['M', '。', 'M', '。', 'M'], ['a', 'M', 'M', 'M'])
    ∧ (charTokenizer.mask_token ++ charTokenizer.mask_token)
        <:+ (['a', 'M', 'M', 'M'] : Txt) :=
  ⟨rfl, ⟨['a', 'M'], rfl⟩⟩

/-- C1 (amended): `answer_text` always has the mask token as a suffix -
exactly one mask token is appended after joining the answer entries with
mask-token separators, and with an empty answer list the result is exactly one
mask token - but when a masked entry is empty or itself ends with the mask
token, the string ends with more than one consecutive mask token. -/
theorem c1_trailing_mask (tk : Tokenizer) (article : Txt)
    (dp sp wp nump : ℚ) (minn maxn : Nat) (fs : List ℚ) (ks : List Nat)
    (p : Txt × Txt)
    (h : mask_article tk article dp sp wp nump minn maxn fs ks = .ok p) :
    tk.mask_token <:+ p.2
    ∧ ∃ ans : List Txt, p.2 = List.intercalate tk.mask_token ans ++ tk.mask_token := by
  rcases fs with _ | ⟨r, fs1⟩
  · simp [mask_article] at h
  · by_cases hr : r < dp
    · rw [mask_article_doc hr] at h
      injection h with h2
      subst h2
      exact ⟨⟨truncArticle tk article, rfl⟩,
        ⟨[truncArticle tk article], by rw [intercalate_one]⟩⟩
    · rcases hs : sentLoop tk sp wp nump minn maxn
          (sentenceSplit (truncArticle tk article)) fs1 ks with e | ⟨ms, ans, fs', ks'⟩
      · rw [show mask_article tk article dp sp wp nump minn maxn (r :: fs1) ks
              = .error e by simp [mask_article, hr, hs]] at h
        cases h
      · rw [mask_article_body hr hs] at h
        injection h with h2
        subst h2
        exact ⟨⟨List.intercalate tk.mask_token ans, rfl⟩, ⟨ans, rfl⟩⟩

/-- Witness for C1 (amended), at the document branch on the article `"a"`. -/
theorem c1_trailing_mask_witness :
    charTokenizer.mask_token <:+
      ((charTokenizer.mask_token,
        truncArticle charTokenizer ['a'] ++ charTokenizer.mask_token) : Txt × Txt).2
    ∧ ∃ ans : List Txt,
        ((charTokenizer.mask_token,
          truncArticle charTokenizer ['a'] ++ charTokenizer.mask_token) : Txt × Txt).2
          = List.intercalate charTokenizer.mask_token ans ++ charTokenizer.mask_token :=
  c1_trailing_mask charTokenizer ['a'] 1 0 0 0 2 6 [0] []
    (charTokenizer.mask_token,
     truncArticle charTokenizer ['a'] ++ charTokenizer.mask_token) rfl

/-- C4: with `sentence_mask_p = 1` and `document_mask_p = 0` (first draw
nonnegative, later draws below 1, enough entropy), every content segment of
the split is replaced by exactly one mask token: the masked text is the
concatenation of the split with each content segment replaced by the mask
token, the answer collects exactly the content segments in order, and the
number of mask-token segments equals the number of content segments provided
the mask token is not itself a delimiter string. -/
theorem c4_sentence_mask (tk : Tokenizer) (article : Txt) (wp nump : ℚ)
    (minn maxn : Nat) (r0 : ℚ) (fs : List ℚ) (ks : List Nat)
    (hr0 : 0 ≤ r0) (hfs : ∀ r ∈ fs, r < 1)
    (hM : tk.mask_token ∉ alphabetSegs)
    (hlen : contentCount (truncArticle tk article) ≤ fs.length) :
    mask_article tk article 0 1 wp nump minn maxn (r0 :: fs) ks
      = .ok (((sentenceSplit (truncArticle tk article)).map
                (maskSeg tk.mask_token)).flatten,
             List.intercalate tk.mask_token
               ((sentenceSplit (truncArticle tk article)).filter (fun s => !isDelim s))
               ++ tk.mask_token)
    ∧ ((sentenceSplit (truncArticle tk article)).map (maskSeg tk.mask_token)).count
        tk.mask_token = contentCount (truncArticle tk article) := by
  constructor
  · have hs := @sentLoop_sp1 tk wp nump minn maxn
      (sentenceSplit (truncArticle tk article)) fs ks hfs
      (show (sentenceSplit (truncArticle tk article)).countP (fun s => !isDelim s)
          ≤ fs.length from hlen)
    exact mask_article_body (not_lt.mpr hr0) hs
  · rw [show contentCount (truncArticle tk article)
        = (sentenceSplit (truncArticle tk article)).countP (fun s => !isDelim s) from rfl]
    exact count_maskSeg hM _

/-- Witness for C4 at the article `"a。b"` with the character tokenizer. -/
theorem c4_sentence_mask_witness :
    mask_article charTokenizer ['a', '。', 'b'] 0 1 0 0 2 6 [0, 0, 0] []
      = .ok (((sentenceSplit (truncArticle charTokenizer ['a', '。', 'b'])).map
                (maskSeg charTokenizer.mask_token)).flatten,
             List.intercalate charTokenizer.mask_token
               ((sentenceSplit (truncArticle charTokenizer ['a', '。', 'b'])).filter
                 (fun s => !isDelim s))
               ++ charTokenizer.mask_token)
    ∧ ((sentenceSplit (truncArticle charTokenizer ['a', '。', 'b'])).map
        (maskSeg charTokenizer.mask_token)).count charTokenizer.mask_token
        = contentCount (truncArticle charTokenizer ['a', '。', 'b']) :=
  c4_sentence_mask charTokenizer ['a', '。', 'b'] 0 0 2 6 0 [0, 0] []
    (by norm_num) (by decide) (by decide) (by decide)

/-- C6 counterexample: the claim constrains only `word_mask_p` and
`document_mask_p`; with `sentence_mask_p = 1` the article `"a"` is
sentence-masked, so the masked text `"M"` differs from the truncated article
`"a"` even though `word_mask_p = 0` and `document_mask_p = 0`. -/
theorem c6_no_mask_counterexample :
    mask_article charTokenizer ['a'] 0 1 0 0 2 6 [0, 0] []
      = .ok (['M'], ['a', 'M'])
    ∧ (['M'] : Txt) ≠ truncArticle charTokenizer ['a'] :=
  ⟨rfl, by decide⟩

/-- C6 (amended): when `word_mask_p = 0`, `sentence_mask_p = 0` and
`document_mask_p = 0`, for a tokenizer whose tokens concatenate back
losslessly and nonnegative draws with enough entropy, `masked_text` equals the
truncated article (nothing masks at any tier) and `answer_text` is a single
trailing mask token (empty answer list). -/
theorem c6_no_mask (tk : Tokenizer) (article : Txt) (nump : ℚ)
    (minn maxn : Nat) (r0 : ℚ) (fs : List ℚ) (ks : List Nat)
    (htok : ∀ s : Txt, (tk.tokenize s).flatten = s)
    (hr0 : 0 ≤ r0) (hfs : ∀ r ∈ fs, 0 ≤ r)
    (hlen : quietBudget tk (sentenceSplit (truncArticle tk article)) ≤ fs.length) :
    mask_article tk article 0 0 0 nump minn maxn (r0 :: fs) ks
      = .ok (truncArticle tk article, tk.mask_token) := by
  have hs := @sentLoop_quiet tk nump minn maxn
    (sentenceSplit (truncArticle tk article)) fs ks hfs hlen
  rw [mask_article_body (not_lt.mpr hr0) hs, perSeg_flatten htok,
    sentenceSplit_flatten, intercalate_zero]
  simp

/-- Witness for C6 (amended) at the article `"a。b"`. -/
theorem c6_no_mask_witness :
    mask_article charTokenizer ['a', '。', 'b'] 0 0 0 0 2 6 [0, 0, 0, 0, 0] []
      = .ok (truncArticle charTokenizer ['a', '。', 'b'], charTokenizer.mask_token) :=
  c6_no_mask charTokenizer ['a', '。', 'b'] 0 2 6 0 [0, 0, 0, 0] []
    charTokenizer_flatten (by norm_num) (by decide) (by decide)

/-- C8 counterexample: with an empty n-gram range
(`min_ngram_length = max_ngram_length = 2`) the moment the n-gram branch
fires, `randrange` is called on an empty range, which raises `ValueError` in
Python (modelled as `.error .emptyRange`): `mask_article` does not always
return a well-formed pair. -/
theorem c8_no_error_counterexample :
    mask_article charTokenizer ['a'] 0 0 1 1 2 2 [0, 0, 0, 0] [0]
      = .error .emptyRange :=
  rfl

/-- C8 (amended): provided `1 ≤ min_ngram_length < max_ngram_length` (and, in
the model, draw lists at least as long as the per-segment budgets),
`mask_article` raises no error and returns a well-formed pair; in particular,
when a drawn n-gram length reaches past the end of the tokenized sentence the
slice yields exactly the remaining tokens (no bounds clamping, no failure) and
the word loop returns normally. -/
theorem c8_no_error (tk : Tokenizer) (article : Txt) (dp sp wp nump : ℚ)
    (minn maxn : Nat) (r0 : ℚ) (fs : List ℚ) (ks : List Nat)
    (hmin : 1 ≤ minn) (hlt : minn < maxn)
    (hfs : floatBudget tk (sentenceSplit (truncArticle tk article)) ≤ fs.length)
    (hks : intBudget tk (sentenceSplit (truncArticle tk article)) ≤ ks.length) :
    (∃ p, mask_article tk article dp sp wp nump minn maxn (r0 :: fs) ks = .ok p)
    ∧ (∀ (M : Txt) (toks : List Txt) (i : Nat) (r1 r2 : ℚ) (fs2 : List ℚ)
         (k : Nat) (ks1 : List Nat),
        i < toks.length → r1 < wp → r2 < nump →
        toks.length ≤ i + (minn + k % (maxn - minn)) →
        wordLoop M wp nump minn maxn toks i (r1 :: r2 :: fs2) (k :: ks1)
          = .ok ([M], [(toks.drop i).flatten], fs2, ks1)) := by
  constructor
  · by_cases hr : r0 < dp
    · exact ⟨_, mask_article_doc hr⟩
    · obtain ⟨ms, ans, fs', ks', hs, _, _⟩ := sentLoop_ok hmin hlt
        (sentenceSplit (truncArticle tk article)) fs ks hfs hks
      exact ⟨_, mask_article_body hr hs⟩
  · intro M toks i r1 r2 fs2 k ks1 hi h1 h2 hover
    have hdone : wordLoop M wp nump minn maxn toks
        (i + (minn + k % (maxn - minn))) fs2 ks1 = .ok ([], [], fs2, ks1) :=
      wordLoop_done (by omega)
    have := wordLoop_ngram hi h1 h2 hlt hdone
    rwa [List.take_of_length_le (by simp only [List.length_drop]; omega)] at this

/-- Witness for C8 (amended): article `"a"`, range `[2, 3)`, overshooting
draw `n = 2` on a one-token sentence. -/
theorem c8_no_error_witness :
    (∃ p, mask_article charTokenizer ['a'] 0 0 1 1 2 3 [0, 0, 0, 0] [0] = .ok p)
    ∧ wordLoop ['M'] 1 1 2 3 [['a']] 0 [0, 0] [0]
      = .ok ([['M']], [((([['a']] : List Txt)).drop 0).flatten], [], []) := by
  have h := c8_no_error charTokenizer ['a'] 0 0 1 1 2 3 0 [0, 0, 0] [0]
    (by norm_num) (by norm_num) (by decide) (by decide)
  exact ⟨h.1, h.2 ['M'] [['a']] 0 0 0 [] 0 [] (by decide) (by norm_num) (by norm_num)
    (by decide)⟩

/-- C10: with `1 ≤ min_ngram_length < max_ngram_length`, the word-level cursor
loop advances by at least one position per iteration, so the scan of a
tokenized sentence is finite: it completes normally consuming at most two
float draws and one integer draw per remaining token, and under the
corresponding per-sentence budgets the whole `mask_article` call terminates
with a well-formed pair. -/
theorem c10_terminates (tk : Tokenizer) (article : Txt) (dp sp wp nump : ℚ)
    (minn maxn : Nat) (r0 : ℚ) (fs : List ℚ) (ks : List Nat)
    (M : Txt) (toks : List Txt) (i : Nat) (fsw : List ℚ) (ksw : List Nat)
    (hmin : 1 ≤ minn) (hlt : minn < maxn)
    (hfsw : 2 * (toks.length - i) ≤ fsw.length) (hksw : toks.length - i ≤ ksw.length)
    (hfs : floatBudget tk (sentenceSplit (truncArticle tk article)) ≤ fs.length)
    (hks : intBudget tk (sentenceSplit (truncArticle tk article)) ≤ ks.length) :
    (∃ ms ans fs' ks', wordLoop M wp nump minn maxn toks i fsw ksw
        = .ok (ms, ans, fs', ks')
      ∧ fsw.length - 2 * (toks.length - i) ≤ fs'.length
      ∧ ksw.length - (toks.length - i) ≤ ks'.length)
    ∧ ∃ p, mask_article tk article dp sp wp nump minn maxn (r0 :: fs) ks = .ok p := by
  constructor
  · exact wordLoop_ok hmin hlt toks.length i fsw ksw (by omega) hfsw hksw
  · by_cases hr : r0 < dp
    · exact ⟨_, mask_article_doc hr⟩
    · obtain ⟨ms, ans, fs', ks', hs, _, _⟩ := sentLoop_ok hmin hlt
        (sentenceSplit (truncArticle tk article)) fs ks hfs hks
      exact ⟨_, mask_article_body hr hs⟩

/-- Witness for C10: a two-token sentence with word masking certain, and the
article `"a"`. -/
theorem c10_terminates_witness :
    (∃ ms ans fs' ks', wordLoop ['M'] 1 1 2 6 [['a'], ['b']] 0 [0, 0, 0, 0] [0, 0]
        = .ok (ms, ans, fs', ks')
      ∧ (([0, 0, 0, 0] : List ℚ)).length - 2 * (([['a'], ['b']] : List Txt).length - 0)
          ≤ fs'.length
      ∧ (([0, 0] : List Nat)).length - (([['a'], ['b']] : List Txt).length - 0)
          ≤ ks'.length)
    ∧ ∃ p, mask_article charTokenizer ['a'] 0 0 1 1 2 6 [0, 0, 0, 0] [0, 0] = .ok p :=
  c10_terminates charTokenizer ['a'] 0 0 1 1 2 6 0 [0, 0, 0] [0, 0]
    ['M'] [['a'], ['b']] 0 [0, 0, 0, 0] [0, 0]
    (by norm_num) (by norm_num) (by decide) (by decide) (by decide) (by decide)
